import Mathlib

/-!
Verification of `bevy_egui` (files `src/lib.rs`, `src/render_systems.rs`).

The Rust code is shallowly embedded: hash maps become association lists,
asset stores become lists of live handles, `f32` arithmetic of the transform
computation is modelled over `ℚ` (the claims under scrutiny concern exact
algebraic relations, not rounding), and panicking operations return `Option`.
-/

namespace BevyEgui

/-! ### Association-list helpers, modelling `bevy_utils::HashMap` semantics -/

/-- Lookup of a key in an association list (`HashMap::get`). -/
def lookupKey {κ ν : Type} [DecidableEq κ] : List (κ × ν) → κ → Option ν
  | [], _ => none
  | p :: rest, k => if p.1 = k then some p.2 else lookupKey rest k

/-- Removal of a key (`HashMap::remove`, dropping every entry with that key). -/
def eraseKey {κ ν : Type} [DecidableEq κ] (l : List (κ × ν)) (k : κ) : List (κ × ν) :=
  l.filter (fun p => decide (p.1 ≠ k))

/-- Insert-or-replace (`HashMap::insert`). -/
def insertKey {κ ν : Type} [DecidableEq κ] (l : List (κ × ν)) (k : κ) (v : ν) :
    List (κ × ν) :=
  (k, v) :: eraseKey l k

/-- Number of entries stored under a key. -/
def countKey {κ ν : Type} [DecidableEq κ] (l : List (κ × ν)) (k : κ) : Nat :=
  l.countP (fun p => decide (p.1 = k))

theorem lookupKey_eraseKey_self {κ ν : Type} [DecidableEq κ] (l : List (κ × ν)) (k : κ) :
    lookupKey (eraseKey l k) k = none := by
  induction l with
  | nil => rfl
  | cons p rest ih =>
    by_cases h : p.1 = k
    · simpa [eraseKey, List.filter, h] using ih
    · simpa [eraseKey, List.filter, h, lookupKey] using ih

theorem lookupKey_eraseKey_ne {κ ν : Type} [DecidableEq κ] (l : List (κ × ν)) (k k' : κ)
    (h : k' ≠ k) : lookupKey (eraseKey l k) k' = lookupKey l k' := by
  induction l with
  | nil => rfl
  | cons p rest ih =>
    by_cases hp : p.1 = k
    · have h1 : eraseKey (p :: rest) k = eraseKey rest k := by
        simp [eraseKey, List.filter_cons, hp]
      have hne : ¬p.1 = k' := by
        rw [hp]
        intro hk
        exact h hk.symm
      have h2 : lookupKey (p :: rest) k' = lookupKey rest k' := by
        simp [lookupKey, hne]
      rw [h1, h2, ih]
    · have h1 : eraseKey (p :: rest) k = p :: eraseKey rest k := by
        simp [eraseKey, List.filter_cons, hp]
      rw [h1]
      by_cases hp' : p.1 = k'
      · simp [lookupKey, hp']
      · simp [lookupKey, hp', ih]

theorem lookupKey_insertKey_self {κ ν : Type} [DecidableEq κ] (l : List (κ × ν)) (k : κ)
    (v : ν) : lookupKey (insertKey l k v) k = some v := by
  simp [insertKey, lookupKey]

theorem lookupKey_insertKey_ne {κ ν : Type} [DecidableEq κ] (l : List (κ × ν)) (k k' : κ)
    (v : ν) (h : k' ≠ k) : lookupKey (insertKey l k v) k' = lookupKey l k' := by
  have : k ≠ k' := fun hk => h hk.symm
  simp [insertKey, lookupKey, this]
  exact lookupKey_eraseKey_ne l k k' h

theorem lookupKey_eq_none_countKey {κ ν : Type} [DecidableEq κ] (l : List (κ × ν)) (k : κ)
    (h : lookupKey l k = none) : countKey l k = 0 := by
  induction l with
  | nil => rfl
  | cons p rest ih =>
    by_cases hp : p.1 = k
    · simp [lookupKey, hp] at h
    · simp [lookupKey, hp] at h
      simp [countKey, List.countP_cons, hp]
      simpa [countKey] using ih h

/-! ### User textures (`EguiUserTextures`, `src/lib.rs`)

Bevy's `Handle<Image>` is modelled as a `Nat` identifier. -/

/-- Corresponds to `egui::TextureId`: a tagged union of toolkit-managed ids
(scoped per render target) and user ids (global). -/
inductive TextureId
  | Managed (id : Nat)
  | User (id : Nat)
deriving DecidableEq, Repr

/-- `EguiUserTextures`: map from image handles to user texture ids plus the
monotonically increasing id counter `last_texture_id`. -/
structure EguiUserTextures where
  textures : List (Nat × Nat)
  last_texture_id : Nat
deriving DecidableEq, Repr

/-- `EguiUserTextures::add_image`: return the existing id for the handle, or
assign `last_texture_id` and increment the counter. -/
def EguiUserTextures.add_image (s : EguiUserTextures) (image : Nat) :
    TextureId × EguiUserTextures :=
  match lookupKey s.textures image with
  | some id => (TextureId.User id, s)
  | none =>
    (TextureId.User s.last_texture_id,
     { textures := (image, s.last_texture_id) :: s.textures,
       last_texture_id := s.last_texture_id + 1 })

/-- `EguiUserTextures::remove_image`: remove the handle and return the id that
was associated with it, if any. The counter is not touched. -/
def EguiUserTextures.remove_image (s : EguiUserTextures) (image : Nat) :
    Option TextureId × EguiUserTextures :=
  match lookupKey s.textures image with
  | some id => (some (TextureId.User id), { s with textures := eraseKey s.textures image })
  | none => (none, s)

/-- Counter invariant of the registry: every stored id was assigned by a past
counter value, hence is below the current counter. -/
def EguiUserTextures.wf (s : EguiUserTextures) : Prop :=
  ∀ p ∈ s.textures, p.2 < s.last_texture_id

/-! ### Per-target transform (`EguiTransform`, `src/render_systems.rs`) -/

/-- `RenderTargetSize`: physical size and scale factor of a render target. -/
structure RenderTargetSize where
  physical_width : ℚ
  physical_height : ℚ
  scale_factor : ℚ
deriving DecidableEq, Repr

/-- `RenderTargetSize::width`. -/
def RenderTargetSize.width (s : RenderTargetSize) : ℚ :=
  s.physical_width / s.scale_factor

/-- `RenderTargetSize::height`. -/
def RenderTargetSize.height (s : RenderTargetSize) : ℚ :=
  s.physical_height / s.scale_factor

/-- `EguiTransform`: scale and translation mapping Egui screen space into
normalized device coordinates. -/
structure EguiTransform where
  scale : ℚ × ℚ
  translation : ℚ × ℚ
deriving DecidableEq, Repr

/-- `EguiTransform::from_render_target_size`. -/
def EguiTransform.from_render_target_size (render_target_size : RenderTargetSize)
    (scale_factor : ℚ) : EguiTransform :=
  { scale := (2 / (render_target_size.width / scale_factor),
              -2 / (render_target_size.height / scale_factor)),
    translation := (-1, 1) }

/-! ### IME events (`EguiContextQueryItem::ime_event_enable` / `_disable`,
`src/lib.rs`) -/

/-- Corresponds to `egui::ImeEvent` (the variants used by the bridge). -/
inductive ImeEvent
  | Enabled
  | Disabled
deriving DecidableEq, Repr

/-- Corresponds to `egui::Event` (the IME constructor used here). -/
inductive Event
  | Ime (e : ImeEvent)
deriving DecidableEq, Repr

/-- The slice of `EguiContextQueryItem` touched by the IME helpers: the
per-target flag `ctx.has_sent_ime_enabled` and the input event buffer
`egui_input.events`. -/
structure ImeCtxState where
  has_sent_ime_enabled : Bool
  events : List Event
deriving DecidableEq, Repr

/-- `EguiContextQueryItem::ime_event_enable`. -/
def ime_event_enable (s : ImeCtxState) : ImeCtxState :=
  if !s.has_sent_ime_enabled then
    { has_sent_ime_enabled := true,
      events := s.events ++ [Event.Ime ImeEvent.Enabled] }
  else s

/-- `EguiContextQueryItem::ime_event_disable`. -/
def ime_event_disable (s : ImeCtxState) : ImeCtxState :=
  if s.has_sent_ime_enabled then
    { has_sent_ime_enabled := false,
      events := s.events ++ [Event.Ime ImeEvent.Disabled] }
  else s

/-- A call into one of the two IME helpers. -/
inductive ImeCall
  | enable
  | disable
deriving DecidableEq, Repr

/-- Runs a sequence of IME helper calls against a context state. -/
def runImeCalls (s : ImeCtxState) : List ImeCall → ImeCtxState
  | [] => s
  | ImeCall.enable :: rest => runImeCalls (ime_event_enable s) rest
  | ImeCall.disable :: rest => runImeCalls (ime_event_disable s) rest

/-- The events pushed to the input buffer by a sequence of IME helper calls. -/
def imeEmitted (s : ImeCtxState) (calls : List ImeCall) : List Event :=
  (runImeCalls s calls).events.drop s.events.length

/-- Pure description of the events emitted by a call sequence, given the
starting value of the `has_sent_ime_enabled` flag. -/
def imeEmitPure (flag : Bool) : List ImeCall → List Event
  | [] => []
  | ImeCall.enable :: rest =>
    if flag then imeEmitPure flag rest
    else Event.Ime ImeEvent.Enabled :: imeEmitPure true rest
  | ImeCall.disable :: rest =>
    if flag then Event.Ime ImeEvent.Disabled :: imeEmitPure false rest
    else imeEmitPure flag rest

theorem runImeCalls_events (calls : List ImeCall) : ∀ s : ImeCtxState,
    (runImeCalls s calls).events = s.events ++ imeEmitPure s.has_sent_ime_enabled calls := by
  induction calls with
  | nil => intro s; simp [runImeCalls, imeEmitPure]
  | cons c rest ih =>
    intro s
    cases c with
    | enable =>
      by_cases h : s.has_sent_ime_enabled
      · simp [runImeCalls, ime_event_enable, h, imeEmitPure, ih]
      · simp [runImeCalls, ime_event_enable, h, imeEmitPure, ih]
    | disable =>
      by_cases h : s.has_sent_ime_enabled
      · simp [runImeCalls, ime_event_disable, h, imeEmitPure, ih]
      · simp [runImeCalls, ime_event_disable, h, imeEmitPure, ih]

theorem imeEmitPure_chain (calls : List ImeCall) : ∀ flag : Bool,
    List.Chain' (fun a b => a ≠ b) (imeEmitPure flag calls) ∧
      ∀ e ∈ (imeEmitPure flag calls).head?,
        e = Event.Ime (if flag then ImeEvent.Disabled else ImeEvent.Enabled) := by
  induction calls with
  | nil => intro flag; simp [imeEmitPure]
  | cons c rest ih =>
    intro flag
    cases c with
    | enable =>
      cases flag with
      | true => simpa [imeEmitPure] using ih true
      | false =>
        have hrest := ih true
        refine ⟨?_, ?_⟩
        · simp only [imeEmitPure, Bool.false_eq_true, if_false]
          rw [List.chain'_cons']
          refine ⟨?_, hrest.1⟩
          intro b hb
          have := hrest.2 b hb
          simp [this]
        · intro e he
          simp [imeEmitPure] at he
          simp [he]
    | disable =>
      cases flag with
      | true =>
        have hrest := ih false
        refine ⟨?_, ?_⟩
        · simp only [imeEmitPure, if_true]
          rw [List.chain'_cons']
          refine ⟨?_, hrest.1⟩
          intro b hb
          have := hrest.2 b hb
          simp [this]
        · intro e he
          simp [imeEmitPure] at he
          simp [he]
      | false => simpa [imeEmitPure] using ih false

theorem imeEmitted_eq_pure (s : ImeCtxState) (calls : List ImeCall) :
    imeEmitted s calls = imeEmitPure s.has_sent_ime_enabled calls := by
  simp [imeEmitted, runImeCalls_events]

theorem lookupKey_some_mem {κ ν : Type} [DecidableEq κ] (l : List (κ × ν)) (k : κ) (v : ν)
    (h : lookupKey l k = some v) : (k, v) ∈ l := by
  induction l with
  | nil => simp [lookupKey] at h
  | cons p rest ih =>
    by_cases hp : p.1 = k
    · simp [lookupKey, hp] at h
      have hpv : p = (k, v) := by
        cases p
        simp only [Prod.mk.injEq]
        exact ⟨hp, h⟩
      rw [hpv]
      exact List.mem_cons_self _ _
    · simp [lookupKey, hp] at h
      right
      exact ih h

/-- C1: for every render target the computed transform has translation
`(-1, 1)`; for physical size `(800, 600)` and scale factor `1` the scale is
`(2 / 800, -2 / 600)`; doubling the scale factor doubles the magnitude of
both scale components. -/
theorem egui_transform_computation :
    (∀ (rts : RenderTargetSize) (s : ℚ),
        (EguiTransform.from_render_target_size rts s).translation = (-1, 1)) ∧
    EguiTransform.from_render_target_size ⟨800, 600, 1⟩ 1
      = { scale := (2 / 800, -2 / 600), translation := (-1, 1) } ∧
    (∀ (rts : RenderTargetSize) (s : ℚ),
        |(EguiTransform.from_render_target_size rts (2 * s)).scale.1|
            = 2 * |(EguiTransform.from_render_target_size rts s).scale.1| ∧
          |(EguiTransform.from_render_target_size rts (2 * s)).scale.2|
            = 2 * |(EguiTransform.from_render_target_size rts s).scale.2|) := by
  refine ⟨fun rts s => rfl, ?_, ?_⟩
  · simp only [EguiTransform.from_render_target_size, RenderTargetSize.width,
      RenderTargetSize.height, EguiTransform.mk.injEq, Prod.mk.injEq]
    norm_num
  intro rts s
  have h1 : (EguiTransform.from_render_target_size rts (2 * s)).scale.1
      = 2 * (EguiTransform.from_render_target_size rts s).scale.1 := by
    simp only [EguiTransform.from_render_target_size, RenderTargetSize.width]
    simp only [div_div_eq_mul_div]
    ring
  have h2 : (EguiTransform.from_render_target_size rts (2 * s)).scale.2
      = 2 * (EguiTransform.from_render_target_size rts s).scale.2 := by
    simp only [EguiTransform.from_render_target_size, RenderTargetSize.height]
    simp only [div_div_eq_mul_div]
    ring
  constructor
  · rw [h1, abs_mul]
    norm_num
  · rw [h2, abs_mul]
    norm_num

/-- C4: `add_image` is idempotent per handle. For a handle not yet registered,
the first call assigns the current counter value and increments the counter,
a second call returns the same id and the same registry state, and the
registry holds exactly one entry for the handle. -/
theorem add_image_idempotent (s : EguiUserTextures) (image : Nat)
    (h : lookupKey s.textures image = none) :
    (s.add_image image).1 = TextureId.User s.last_texture_id ∧
    ((s.add_image image).2).last_texture_id = s.last_texture_id + 1 ∧
    ((s.add_image image).2).add_image image = ((s.add_image image).1, (s.add_image image).2) ∧
    countKey ((s.add_image image).2).textures image = 1 := by
  have hcount : s.textures.countP (fun p => decide (p.1 = image)) = 0 := by
    simpa [countKey] using lookupKey_eq_none_countKey s.textures image h
  have hs1 : s.add_image image
      = (TextureId.User s.last_texture_id,
         { textures := (image, s.last_texture_id) :: s.textures,
           last_texture_id := s.last_texture_id + 1 }) := by
    simp [EguiUserTextures.add_image, h]
  rw [hs1]
  refine ⟨rfl, rfl, ?_, ?_⟩
  · simp [EguiUserTextures.add_image, lookupKey]
  · simp [countKey, List.countP_cons, hcount]

/-- Witness for C4 at the empty registry and handle `5`. -/
theorem add_image_idempotent_witness :
    lookupKey (⟨[], 0⟩ : EguiUserTextures).textures 5 = none ∧
      (EguiUserTextures.add_image ⟨[], 0⟩ 5).1 = TextureId.User 0 :=
  ⟨rfl, (add_image_idempotent ⟨[], 0⟩ 5 rfl).1⟩

/-- C5: the user-id counter is monotone across `add_image` and unchanged by
`remove_image`; removing a registered handle and re-adding it yields the
current counter value, which differs from the previously assigned id. -/
theorem user_texture_ids_never_reused (s : EguiUserTextures) (image id : Nat)
    (hwf : s.wf) (hid : lookupKey s.textures image = some id) :
    (∀ (t : EguiUserTextures) (img : Nat),
        t.last_texture_id ≤ ((t.add_image img).2).last_texture_id) ∧
    (∀ (t : EguiUserTextures) (img : Nat),
        ((t.remove_image img).2).last_texture_id = t.last_texture_id) ∧
    (((s.remove_image image).2).add_image image).1 = TextureId.User s.last_texture_id ∧
    (((s.remove_image image).2).add_image image).1 ≠ TextureId.User id := by
  have hmem : (image, id) ∈ s.textures := lookupKey_some_mem s.textures image id hid
  have hlt : id < s.last_texture_id := hwf (image, id) hmem
  have hremoved : (s.remove_image image).2
      = { s with textures := eraseKey s.textures image } := by
    simp [EguiUserTextures.remove_image, hid]
  have hnone : lookupKey ((s.remove_image image).2).textures image = none := by
    rw [hremoved]
    exact lookupKey_eraseKey_self s.textures image
  have hadd : (((s.remove_image image).2).add_image image).1
      = TextureId.User ((s.remove_image image).2).last_texture_id := by
    simp [EguiUserTextures.add_image, hnone]
  refine ⟨?_, ?_, ?_, ?_⟩
  · intro t img
    cases hl : lookupKey t.textures img <;> simp [EguiUserTextures.add_image, hl]
  · intro t img
    cases hl : lookupKey t.textures img <;> simp [EguiUserTextures.remove_image, hl]
  · rw [hadd, hremoved]
  · rw [hadd, hremoved]
    simp only [ne_eq, TextureId.User.injEq]
    omega

/-- Witness for C5 at a one-entry registry. -/
theorem user_texture_ids_never_reused_witness :
    ((((⟨[(5, 0)], 1⟩ : EguiUserTextures).remove_image 5).2).add_image 5).1
      ≠ TextureId.User 0 :=
  (user_texture_ids_never_reused ⟨[(5, 0)], 1⟩ 5 0
    (by intro p hp; simp at hp; simp [hp]) rfl).2.2.2

/-- C7: IME events are edge-triggered. In every sequence of calls to
`ime_event_enable` and `ime_event_disable`, consecutive emitted IME events
always differ (so `Enabled` is never pushed twice without a `Disabled` in
between, and symmetrically), and each helper is idempotent thanks to the
`has_sent_ime_enabled` flag. -/
theorem ime_events_edge_triggered :
    (∀ (s : ImeCtxState) (calls : List ImeCall),
        List.Chain' (fun a b => a ≠ b) (imeEmitted s calls)) ∧
    (∀ s : ImeCtxState,
        ime_event_enable (ime_event_enable s) = ime_event_enable s ∧
        ime_event_disable (ime_event_disable s) = ime_event_disable s) := by
  constructor
  · intro s calls
    rw [imeEmitted_eq_pure]
    exact (imeEmitPure_chain calls s.has_sent_ime_enabled).1
  · intro s
    constructor
    · by_cases h : s.has_sent_ime_enabled <;> simp [ime_event_enable, h]
    · by_cases h : s.has_sent_ime_enabled <;> simp [ime_event_disable, h]

/-! ### Render-graph synchronization (`src/render_systems.rs`) -/

/-- Bevy `Entity`: index and generation. -/
structure Entity where
  index : Nat
  generation : Nat
deriving DecidableEq, Repr

/-- Corresponds to `egui_node::EguiRenderTargetType`. -/
inductive EguiRenderTargetType
  | Window
  | Image
deriving DecidableEq, Repr

/-- `EguiPass`: the render-graph label for a target's egui node. -/
structure EguiPass where
  entity_index : Nat
  entity_generation : Nat
  render_target_type : EguiRenderTargetType
deriving DecidableEq, Repr

/-- `EguiPass::from_window_entity`. -/
def EguiPass.from_window_entity (entity : Entity) : EguiPass :=
  { entity_index := entity.index,
    entity_generation := entity.generation,
    render_target_type := EguiRenderTargetType.Window }

/-- `EguiPass::from_render_to_image_entity`. -/
def EguiPass.from_render_to_image_entity (entity : Entity) : EguiPass :=
  { entity_index := entity.index,
    entity_generation := entity.generation,
    render_target_type := EguiRenderTargetType.Image }

/-- A render-graph node label: either an egui pass or bevy's
`CameraDriverLabel`. -/
inductive NodeLabel
  | eguiPass (pass : EguiPass)
  | cameraDriver
deriving DecidableEq, Repr

/-- `egui_node::EguiNode`: only its construction arguments are relevant to
graph synchronization; its draw-time behaviour is outside these claims. -/
structure EguiNode where
  main_entity : Entity
  render_entity : Entity
  target_type : EguiRenderTargetType
deriving DecidableEq, Repr

/-- `EguiNode::new`. -/
def EguiNode.new (main_entity render_entity : Entity)
    (target_type : EguiRenderTargetType) : EguiNode :=
  { main_entity := main_entity, render_entity := render_entity,
    target_type := target_type }

/-- A node value in the graph: an egui node or some external node (such as
the camera driver node). -/
inductive NodeValue
  | egui (node : EguiNode)
  | external
deriving DecidableEq, Repr

/-- Modelled from bevy's documented `RenderGraph` API (an external interface
of this crate, see the spec's External Interfaces section): labelled nodes
plus directed edges; the edge `(a, b)` added by `add_node_edge(a, b)` makes
node `a` run before node `b`. -/
structure RenderGraph where
  nodes : List (NodeLabel × NodeValue)
  edges : List (NodeLabel × NodeLabel)
deriving DecidableEq, Repr

/-- Bevy `RenderGraph::add_node`. -/
def RenderGraph.add_node (g : RenderGraph) (label : NodeLabel) (value : NodeValue) :
    RenderGraph :=
  { g with nodes := (label, value) :: g.nodes }

/-- Bevy `RenderGraph::add_node_edge`: `output` will run before `input`. -/
def RenderGraph.add_node_edge (g : RenderGraph) (output input : NodeLabel) :
    RenderGraph :=
  { g with edges := (output, input) :: g.edges }

/-- Whether a node with the given label exists in the graph. -/
def RenderGraph.has_node (g : RenderGraph) (label : NodeLabel) : Bool :=
  g.nodes.any (fun p => decide (p.1 = label))

/-- Modelled from bevy's documented `RenderGraph::remove_node`: removing an
existing node succeeds and drops the node together with its attached edges;
removing a missing node returns an error and leaves the graph untouched. -/
def RenderGraph.remove_node (g : RenderGraph) (label : NodeLabel) :
    Except String RenderGraph :=
  if g.has_node label then
    Except.ok
      { nodes := g.nodes.filter (fun p => decide (p.1 ≠ label)),
        edges := g.edges.filter
          (fun e => decide (e.1 ≠ label) && decide (e.2 ≠ label)) }
  else Except.error ("NodeDoesNotExist")

/-- The execution-order constraint declared by a graph edge. -/
def RenderGraph.runsBefore (g : RenderGraph) (a b : NodeLabel) : Prop :=
  (a, b) ∈ g.edges

/-- `setup_new_window_nodes_system`: for each newly created window, add an
egui node and make it run after the camera driver. -/
def setup_new_window_nodes_system (windows : List (Entity × Entity))
    (g : RenderGraph) : RenderGraph :=
  match windows with
  | [] => g
  | (window_entity, window_render_entity) :: rest =>
    let egui_pass := EguiPass.from_window_entity window_entity
    let new_node := EguiNode.new window_entity window_render_entity
      EguiRenderTargetType.Window
    let g1 := g.add_node (NodeLabel.eguiPass egui_pass) (NodeValue.egui new_node)
    let g2 := g1.add_node_edge NodeLabel.cameraDriver (NodeLabel.eguiPass egui_pass)
    setup_new_window_nodes_system rest g2

/-- `setup_new_render_to_image_nodes_system`: for each newly created
render-to-image target, add an egui node and make it run before the camera
driver. -/
def setup_new_render_to_image_nodes_system (targets : List (Entity × Entity))
    (g : RenderGraph) : RenderGraph :=
  match targets with
  | [] => g
  | (render_to_image_entity, render_entity) :: rest =>
    let egui_pass := EguiPass.from_render_to_image_entity render_to_image_entity
    let new_node := EguiNode.new render_to_image_entity render_entity
      EguiRenderTargetType.Image
    let g1 := g.add_node (NodeLabel.eguiPass egui_pass) (NodeValue.egui new_node)
    let g2 := g1.add_node_edge (NodeLabel.eguiPass egui_pass) NodeLabel.cameraDriver
    setup_new_render_to_image_nodes_system rest g2

/-- Shared loop body of the two teardown systems: remove each entity's node,
logging an error (instead of propagating a failure) when the node no longer
exists. -/
def teardown_nodes (label : Entity → NodeLabel) (g : RenderGraph) :
    List Entity → RenderGraph × List String
  | [] => (g, [])
  | entity :: rest =>
    match g.remove_node (label entity) with
    | Except.ok g' => teardown_nodes label g' rest
    | Except.error err =>
      ((teardown_nodes label g rest).1,
       ("Failed to remove a render graph node: " ++ err)
         :: (teardown_nodes label g rest).2)

/-- `teardown_window_nodes_system`. -/
def teardown_window_nodes_system (removed_windows : List Entity)
    (g : RenderGraph) : RenderGraph × List String :=
  teardown_nodes (fun e => NodeLabel.eguiPass (EguiPass.from_window_entity e))
    g removed_windows

/-- `teardown_render_to_image_nodes_system`. -/
def teardown_render_to_image_nodes_system (removed : List Entity)
    (g : RenderGraph) : RenderGraph × List String :=
  teardown_nodes
    (fun e => NodeLabel.eguiPass (EguiPass.from_render_to_image_entity e))
    g removed

theorem teardown_nodes_missing_head (label : Entity → NodeLabel) (g : RenderGraph)
    (e : Entity) (rest : List Entity) (h : g.has_node (label e) = false) :
    teardown_nodes label g (e :: rest)
      = ((teardown_nodes label g rest).1,
         ("Failed to remove a render graph node: " ++ "NodeDoesNotExist")
           :: (teardown_nodes label g rest).2) := by
  simp [teardown_nodes, RenderGraph.remove_node, h]

theorem teardown_nodes_filter (label : Entity → NodeLabel) (l : List Entity) :
    ∀ g : RenderGraph,
      (teardown_nodes label g l).1.nodes
        = g.nodes.filter (fun p => decide (p.1 ∉ l.map label)) := by
  induction l with
  | nil =>
    intro g
    simp [teardown_nodes]
  | cons e rest ih =>
    intro g
    by_cases h : g.has_node (label e)
    · have hstep : teardown_nodes label g (e :: rest)
          = teardown_nodes label
            { nodes := g.nodes.filter (fun p => decide (p.1 ≠ label e)),
              edges := g.edges.filter
                (fun ed => decide (ed.1 ≠ label e) && decide (ed.2 ≠ label e)) }
            rest := by
        simp [teardown_nodes, RenderGraph.remove_node, h]
      rw [hstep, ih]
      simp only [List.filter_filter]
      apply List.filter_congr
      intro p hp
      by_cases h1 : p.1 = label e <;> by_cases h2 : p.1 ∈ rest.map label <;>
        simp [h1, h2, List.mem_cons]
    · have h' : g.has_node (label e) = false := by
        simpa using h
      rw [teardown_nodes_missing_head label g e rest h']
      simp only [ih]
      apply List.filter_congr
      intro p hp
      have hne : p.1 ≠ label e := by
        intro hpe
        have : g.has_node (label e) = true := by
          simp only [RenderGraph.has_node, List.any_eq_true]
          exact ⟨p, hp, by simp [hpe]⟩
        rw [this] at h'
        exact Bool.noConfusion h'
      by_cases h2 : p.1 ∈ rest.map label <;> simp [h2, List.mem_cons, hne]

/-- C8: teardown of a render-graph node that no longer exists is non-fatal.
The failed removal leaves the graph unchanged and logs an error message, the
remaining removals are still processed (for both window and render-to-image
targets), and after the system runs the node set is exactly the old node set
minus the nodes of the removed targets. -/
theorem teardown_missing_node_nonfatal (g : RenderGraph) (e : Entity)
    (rest : List Entity)
    (hw : g.has_node (NodeLabel.eguiPass (EguiPass.from_window_entity e)) = false)
    (hi : g.has_node (NodeLabel.eguiPass (EguiPass.from_render_to_image_entity e))
      = false) :
    teardown_window_nodes_system (e :: rest) g
      = ((teardown_window_nodes_system rest g).1,
         ("Failed to remove a render graph node: " ++ "NodeDoesNotExist")
           :: (teardown_window_nodes_system rest g).2) ∧
    teardown_render_to_image_nodes_system (e :: rest) g
      = ((teardown_render_to_image_nodes_system rest g).1,
         ("Failed to remove a render graph node: " ++ "NodeDoesNotExist")
           :: (teardown_render_to_image_nodes_system rest g).2) ∧
    (∀ (g' : RenderGraph) (l : List Entity),
      (teardown_window_nodes_system l g').1.nodes
        = g'.nodes.filter (fun p => decide (p.1 ∉
            l.map (fun e' => NodeLabel.eguiPass (EguiPass.from_window_entity e'))))) := by
  refine ⟨?_, ?_, ?_⟩
  · exact teardown_nodes_missing_head _ g e rest hw
  · exact teardown_nodes_missing_head _ g e rest hi
  · intro g' l
    exact teardown_nodes_filter _ l g'

/-- Witness for C8: removing the node of window entity `(0, 0)` from the
empty render graph logs one error and leaves the graph empty. -/
theorem teardown_missing_node_nonfatal_witness :
    teardown_window_nodes_system [⟨0, 0⟩] ⟨[], []⟩
      = ((⟨[], []⟩ : RenderGraph),
         [("Failed to remove a render graph node: " ++ "NodeDoesNotExist")]) := by
  have h := (teardown_missing_node_nonfatal ⟨[], []⟩ ⟨0, 0⟩ [] rfl rfl).1
  simpa [teardown_window_nodes_system, teardown_nodes] using h

theorem setup_new_window_nodes_mono (windows : List (Entity × Entity)) :
    ∀ g : RenderGraph,
      g.edges ⊆ (setup_new_window_nodes_system windows g).edges ∧
        g.nodes ⊆ (setup_new_window_nodes_system windows g).nodes := by
  induction windows with
  | nil => intro g; exact ⟨fun a ha => ha, fun a ha => ha⟩
  | cons w rest ih =>
    intro g
    obtain ⟨we, re⟩ := w
    have h := ih ((g.add_node
        (NodeLabel.eguiPass (EguiPass.from_window_entity we))
        (NodeValue.egui (EguiNode.new we re EguiRenderTargetType.Window))).add_node_edge
      NodeLabel.cameraDriver (NodeLabel.eguiPass (EguiPass.from_window_entity we)))
    constructor
    · intro a ha
      exact h.1 (by
        simp only [RenderGraph.add_node_edge, RenderGraph.add_node]
        exact List.mem_cons_of_mem _ ha)
    · intro a ha
      exact h.2 (by
        simp only [RenderGraph.add_node_edge, RenderGraph.add_node]
        exact List.mem_cons_of_mem _ ha)

theorem setup_new_render_to_image_nodes_mono (targets : List (Entity × Entity)) :
    ∀ g : RenderGraph,
      g.edges ⊆ (setup_new_render_to_image_nodes_system targets g).edges ∧
        g.nodes ⊆ (setup_new_render_to_image_nodes_system targets g).nodes := by
  induction targets with
  | nil => intro g; exact ⟨fun a ha => ha, fun a ha => ha⟩
  | cons w rest ih =>
    intro g
    obtain ⟨we, re⟩ := w
    have h := ih ((g.add_node
        (NodeLabel.eguiPass (EguiPass.from_render_to_image_entity we))
        (NodeValue.egui (EguiNode.new we re EguiRenderTargetType.Image))).add_node_edge
      (NodeLabel.eguiPass (EguiPass.from_render_to_image_entity we)) NodeLabel.cameraDriver)
    constructor
    · intro a ha
      exact h.1 (by
        simp only [RenderGraph.add_node_edge, RenderGraph.add_node]
        exact List.mem_cons_of_mem _ ha)
    · intro a ha
      exact h.2 (by
        simp only [RenderGraph.add_node_edge, RenderGraph.add_node]
        exact List.mem_cons_of_mem _ ha)

/-- C9: for every newly created window target the setup system adds the node
and an edge making the egui pass run after the camera driver; for every newly
created render-to-image target it adds the node and the edge in the opposite
direction, so the image pass runs before the camera driver. -/
theorem new_node_edges_direction (windows targets : List (Entity × Entity))
    (g : RenderGraph) (e re : Entity) :
    ((e, re) ∈ windows →
      (setup_new_window_nodes_system windows g).runsBefore
          NodeLabel.cameraDriver
          (NodeLabel.eguiPass (EguiPass.from_window_entity e)) ∧
        (NodeLabel.eguiPass (EguiPass.from_window_entity e),
            NodeValue.egui (EguiNode.new e re EguiRenderTargetType.Window))
          ∈ (setup_new_window_nodes_system windows g).nodes) ∧
    ((e, re) ∈ targets →
      (setup_new_render_to_image_nodes_system targets g).runsBefore
          (NodeLabel.eguiPass (EguiPass.from_render_to_image_entity e))
          NodeLabel.cameraDriver ∧
        (NodeLabel.eguiPass (EguiPass.from_render_to_image_entity e),
            NodeValue.egui (EguiNode.new e re EguiRenderTargetType.Image))
          ∈ (setup_new_render_to_image_nodes_system targets g).nodes) := by
  constructor
  · induction windows generalizing g with
    | nil => intro h; exact absurd h (List.not_mem_nil _)
    | cons w rest ih =>
      intro hmem
      obtain ⟨we, wre⟩ := w
      rcases List.mem_cons.1 hmem with heq | hrest
      · obtain ⟨he, hre⟩ := Prod.mk.injEq .. ▸ heq
        subst he
        subst hre
        have hmono := setup_new_window_nodes_mono rest
          ((g.add_node (NodeLabel.eguiPass (EguiPass.from_window_entity e))
            (NodeValue.egui (EguiNode.new e re EguiRenderTargetType.Window))).add_node_edge
            NodeLabel.cameraDriver (NodeLabel.eguiPass (EguiPass.from_window_entity e)))
        constructor
        · exact hmono.1 (by
            simp [RenderGraph.add_node_edge, RenderGraph.add_node, RenderGraph.runsBefore])
        · exact hmono.2 (by
            simp [RenderGraph.add_node_edge, RenderGraph.add_node])
      · exact ih _ hrest
  · induction targets generalizing g with
    | nil => intro h; exact absurd h (List.not_mem_nil _)
    | cons w rest ih =>
      intro hmem
      obtain ⟨we, wre⟩ := w
      rcases List.mem_cons.1 hmem with heq | hrest
      · obtain ⟨he, hre⟩ := Prod.mk.injEq .. ▸ heq
        subst he
        subst hre
        have hmono := setup_new_render_to_image_nodes_mono rest
          ((g.add_node (NodeLabel.eguiPass (EguiPass.from_render_to_image_entity e))
            (NodeValue.egui (EguiNode.new e re EguiRenderTargetType.Image))).add_node_edge
            (NodeLabel.eguiPass (EguiPass.from_render_to_image_entity e)) NodeLabel.cameraDriver)
        constructor
        · exact hmono.1 (by
            simp [RenderGraph.add_node_edge, RenderGraph.add_node, RenderGraph.runsBefore])
        · exact hmono.2 (by
            simp [RenderGraph.add_node_edge, RenderGraph.add_node])
      · exact ih _ hrest

/-- Witness for C9 at a single window and a single image target. -/
theorem new_node_edges_direction_witness :
    (setup_new_window_nodes_system [(⟨1, 0⟩, ⟨2, 0⟩)] ⟨[], []⟩).runsBefore
        NodeLabel.cameraDriver
        (NodeLabel.eguiPass (EguiPass.from_window_entity ⟨1, 0⟩)) ∧
      (setup_new_render_to_image_nodes_system [(⟨1, 0⟩, ⟨2, 0⟩)] ⟨[], []⟩).runsBefore
        (NodeLabel.eguiPass (EguiPass.from_render_to_image_entity ⟨1, 0⟩))
        NodeLabel.cameraDriver :=
  ⟨((new_node_edges_direction [(⟨1, 0⟩, ⟨2, 0⟩)] [] ⟨[], []⟩ ⟨1, 0⟩ ⟨2, 0⟩).1
      (List.mem_singleton.2 rfl)).1,
   ((new_node_edges_direction [] [(⟨1, 0⟩, ⟨2, 0⟩)] ⟨[], []⟩ ⟨1, 0⟩ ⟨2, 0⟩).2
      (List.mem_singleton.2 rfl)).1⟩

/-! ### Managed textures (`update_egui_textures_system`,
`free_egui_textures_system`, `src/lib.rs`) -/

/-- Pixel colors (`egui::Color32`) modelled abstractly. -/
abbrev Color := Nat

/-- `egui::ColorImage`: size plus a flat row-major pixel buffer. -/
structure ColorImage where
  width : Nat
  height : Nat
  pixels : List Color
deriving DecidableEq, Repr

/-- Size invariant of `egui::ColorImage`: the buffer holds `width * height`
pixels. -/
def ColorImage.wf (img : ColorImage) : Prop :=
  img.pixels.length = img.width * img.height

/-- Reading `img[(x, y)]`: egui's `Index` impl asserts `x < width` and
`y < height` and then indexes `pixels[y * width + x]`; `none` models the
panic of a failed assert or an out-of-range vector index. -/
def ColorImage.read (img : ColorImage) (x y : Nat) : Option Color :=
  if x < img.width ∧ y < img.height then img.pixels.get? (y * img.width + x)
  else none

/-- Writing `img[(x, y)] = c`: egui's `IndexMut` impl, with the same asserts
and the vector bounds check; `none` models a panic. -/
def ColorImage.write (img : ColorImage) (x y : Nat) (c : Color) :
    Option ColorImage :=
  if x < img.width ∧ y < img.height then
    if y * img.width + x < img.pixels.length then
      some { img with pixels := img.pixels.set (y * img.width + x) c }
    else none
  else none

/-- One iteration step of the inner loop of `update_image_rect`:
`dest[(x + sx, y + sy)] = src[(sx, sy)]` (the right-hand side is evaluated
first, as in Rust). -/
def writeCell (x y : Nat) (src : ColorImage) (dest : ColorImage) (sx sy : Nat) :
    Option ColorImage :=
  match src.read sx sy with
  | none => none
  | some c => dest.write (x + sx) (y + sy) c

/-- The inner loop of `update_image_rect` over the column indices in `cols`
for the fixed source row `sy`. -/
def writeRowCells (x y sy : Nat) (src : ColorImage) (dest : ColorImage) :
    List Nat → Option ColorImage
  | [] => some dest
  | sx :: rest =>
    match writeCell x y src dest sx sy with
    | none => none
    | some d => writeRowCells x y sy src d rest

/-- The outer loop of `update_image_rect` over the row indices in `rows`. -/
def writeRowsOf (x y : Nat) (src : ColorImage) (dest : ColorImage) :
    List Nat → Option ColorImage
  | [] => some dest
  | sy :: rest =>
    match writeRowCells x y sy src dest (List.range src.width) with
    | none => none
    | some d => writeRowsOf x y src d rest

/-- `update_image_rect` (the nested helper of `update_egui_textures_system`):
`for sy in 0..src.height, for sx in 0..src.width,
dest[(x + sx, y + sy)] = src[(sx, sy)]`. -/
def update_image_rect (dest : ColorImage) (pos : Nat × Nat) (src : ColorImage) :
    Option ColorImage :=
  writeRowsOf pos.1 pos.2 src dest (List.range src.height)

/-- `egui::epaint::image::ImageDelta`: the image data and the optional
sub-rect offset (`pos`). -/
structure ImageDelta where
  image : ColorImage
  pos : Option (Nat × Nat)
deriving DecidableEq, Repr

/-- `EguiManagedTexture`: the bevy image-asset handle (modelled as `Nat`) and
the resident full pixel buffer. -/
structure EguiManagedTexture where
  handle : Nat
  color_image : ColorImage
deriving DecidableEq, Repr

/-- The bevy `Assets<Image>` store: a fresh-handle counter and the map from
live handles to images. -/
structure Assets where
  next_id : Nat
  images : List (Nat × ColorImage)
deriving DecidableEq, Repr

/-- `Assets::add`: store the image under a fresh handle. -/
def Assets.add (a : Assets) (img : ColorImage) : Nat × Assets :=
  (a.next_id, { next_id := a.next_id + 1, images := (a.next_id, img) :: a.images })

/-- `Assets::remove`. -/
def Assets.remove (a : Assets) (handle : Nat) : Assets :=
  { a with images := eraseKey a.images handle }

/-- The state touched by the texture systems: `EguiManagedTextures` (keyed by
`(entity, texture_id)`), `Assets<Image>`, and the warnings logged so far. -/
structure TextureState where
  managed : List ((Entity × Nat) × EguiManagedTexture)
  assets : Assets
  warnings : List String
deriving DecidableEq, Repr

/-- The body of the `for (texture_id, image_delta) in set_textures` loop of
`update_egui_textures_system` for one delta entry: user ids are skipped; a
delta with a `pos` patches the existing managed texture in place (or only
logs a warning when that texture is missing); a delta without `pos` is a
full upload replacing the stored entry. `none` models a panic inside
`update_image_rect`. -/
def apply_set_texture (entity : Entity) (st : TextureState)
    (entry : TextureId × ImageDelta) : Option TextureState :=
  match entry.1 with
  | TextureId.User _ => some st
  | TextureId.Managed texture_id =>
    let color_image := entry.2.image
    match entry.2.pos with
    | some pos =>
      match lookupKey st.managed (entity, texture_id) with
      | some managed_texture =>
        match update_image_rect managed_texture.color_image pos color_image with
        | none => none
        | some new_image =>
          let added := st.assets.add new_image
          some { st with
            managed := insertKey st.managed (entity, texture_id)
              { handle := added.1, color_image := new_image },
            assets := added.2 }
      | none =>
        some { st with warnings := st.warnings
          ++ ["Partial update of a missing texture (id: " ++ toString texture_id ++ ")"] }
    | none =>
      let added := st.assets.add color_image
      some { st with
        managed := insertKey st.managed (entity, texture_id)
          { handle := added.1, color_image := color_image },
        assets := added.2 }

/-- `update_egui_textures_system` for one render target: fold the loop body
over the target's `textures_delta.set` list. -/
def update_egui_textures_system (entity : Entity)
    (set_textures : List (TextureId × ImageDelta)) (st : TextureState) :
    Option TextureState :=
  match set_textures with
  | [] => some st
  | entry :: rest =>
    match apply_set_texture entity st entry with
    | none => none
    | some st' => update_egui_textures_system entity rest st'

/-- `free_egui_textures_system` for one render target: for each managed id in
the target's `textures_delta.free` list, remove the managed entry and, when
one was present, remove its backing asset; user ids are left alone. -/
def free_egui_textures_system (entity : Entity) (free_textures : List TextureId)
    (managed : List ((Entity × Nat) × EguiManagedTexture)) (assets : Assets) :
    List ((Entity × Nat) × EguiManagedTexture) × Assets :=
  match free_textures with
  | [] => (managed, assets)
  | TextureId.User _ :: rest => free_egui_textures_system entity rest managed assets
  | TextureId.Managed texture_id :: rest =>
    match lookupKey managed (entity, texture_id) with
    | some managed_texture =>
      free_egui_textures_system entity rest
        (eraseKey managed (entity, texture_id))
        (assets.remove managed_texture.handle)
    | none => free_egui_textures_system entity rest managed assets

/-- `resolve`: bind-group construction looks a texture id up in the managed
store and then fetches the backing asset; either miss fails the resolve. -/
def resolveManaged (managed : List ((Entity × Nat) × EguiManagedTexture))
    (assets : Assets) (entity : Entity) (texture_id : Nat) : Option ColorImage :=
  match lookupKey managed (entity, texture_id) with
  | none => none
  | some managed_texture => lookupKey assets.images managed_texture.handle

theorem index_coord_inj {w px py px' py' : Nat} (hx : px < w) (hx' : px' < w) :
    py * w + px = py' * w + px' ↔ px = px' ∧ py = py' := by
  constructor
  · intro h
    have hw : 0 < w := Nat.lt_of_le_of_lt (Nat.zero_le px) hx
    have hmod : (py * w + px) % w = px := by
      rw [Nat.add_comm, Nat.add_mul_mod_self_right, Nat.mod_eq_of_lt hx]
    have hmod' : (py' * w + px') % w = px' := by
      rw [Nat.add_comm, Nat.add_mul_mod_self_right, Nat.mod_eq_of_lt hx']
    have hpx : px = px' := by rw [← hmod, ← hmod', h]
    refine ⟨hpx, ?_⟩
    have hmul : py * w = py' * w := by omega
    exact Nat.eq_of_mul_eq_mul_right hw hmul
  · rintro ⟨h1, h2⟩
    rw [h1, h2]

theorem index_lt_size {w h x y : Nat} (hx : x < w) (hy : y < h) :
    y * w + x < w * h := by
  have h1 : (y + 1) * w = y * w + w := Nat.succ_mul y w
  have h2 : (y + 1) * w ≤ h * w := Nat.mul_le_mul_right w hy
  have h3 : h * w = w * h := Nat.mul_comm h w
  omega

theorem ColorImage.read_eq_get (img : ColorImage) (x y : Nat) (hx : x < img.width)
    (hy : y < img.height) : img.read x y = img.pixels.get? (y * img.width + x) := by
  simp [ColorImage.read, hx, hy]

theorem ColorImage.read_isSome (img : ColorImage) (hwf : img.wf) (x y : Nat)
    (hx : x < img.width) (hy : y < img.height) : ∃ c, img.read x y = some c := by
  rw [ColorImage.read_eq_get img x y hx hy]
  have hidx : y * img.width + x < img.pixels.length := by
    rw [hwf]
    exact index_lt_size hx hy
  cases hc : img.pixels.get? (y * img.width + x) with
  | some c => exact ⟨c, rfl⟩
  | none =>
    rw [List.get?_eq_none] at hc
    omega

theorem ColorImage.write_spec (img : ColorImage) (hwf : img.wf) (x y : Nat)
    (c : Color) (hx : x < img.width) (hy : y < img.height) :
    img.write x y c
      = some { img with pixels := img.pixels.set (y * img.width + x) c } := by
  have hidx : y * img.width + x < img.pixels.length := by
    rw [hwf]
    exact index_lt_size hx hy
  simp [ColorImage.write, hx, hy, hidx]

theorem ColorImage.wf_set (img : ColorImage) (hwf : img.wf) (i : Nat) (c : Color) :
    ({ img with pixels := img.pixels.set i c } : ColorImage).wf := by
  simpa [ColorImage.wf] using hwf

theorem ColorImage.read_set (img : ColorImage) (hwf : img.wf) (x y : Nat) (c : Color)
    (hx : x < img.width) (hy : y < img.height) (px py : Nat) :
    ({ img with pixels := img.pixels.set (y * img.width + x) c } : ColorImage).read px py
      = if px = x ∧ py = y then some c else img.read px py := by
  have hidx : y * img.width + x < img.pixels.length := by
    rw [hwf]
    exact index_lt_size hx hy
  by_cases hb : px < img.width ∧ py < img.height
  · obtain ⟨hbx, hby⟩ := hb
    by_cases heq : px = x ∧ py = y
    · obtain ⟨hex, hey⟩ := heq
      subst hex
      subst hey
      simp only [ColorImage.read, hbx, hby, and_self, if_true]
      rw [List.get?_set_of_lt' c img.pixels hidx]
      simp
    · have hne : py * img.width + px ≠ y * img.width + x := by
        intro hcontra
        exact heq ((index_coord_inj hbx hx).1 hcontra)
      simp only [ColorImage.read, hbx, hby, and_self, if_true, heq, if_false]
      rw [List.get?_set_of_lt' c img.pixels hidx, if_neg (Ne.symm hne)]
  · have heq : ¬(px = x ∧ py = y) := by
      rintro ⟨rfl, rfl⟩
      exact hb ⟨hx, hy⟩
    simp only [ColorImage.read, hb, if_false, heq]

theorem exists_mem_range_add (n x px : Nat) :
    (∃ sx ∈ List.range n, px = x + sx) ↔ (x ≤ px ∧ px < x + n) := by
  constructor
  · rintro ⟨sx, hsx, rfl⟩
    simp only [List.mem_range] at hsx
    omega
  · rintro ⟨h1, h2⟩
    exact ⟨px - x, by simp only [List.mem_range]; omega, by omega⟩

theorem writeRowCells_spec (src : ColorImage) (hsrc : src.wf) (x y sy : Nat)
    (hsy : sy < src.height) (cols : List Nat) :
    ∀ dest : ColorImage, dest.wf →
      (∀ sx ∈ cols, sx < src.width ∧ x + sx < dest.width) →
      y + sy < dest.height →
      ∃ d, writeRowCells x y sy src dest cols = some d ∧
        d.width = dest.width ∧ d.height = dest.height ∧ d.wf ∧
        ∀ px py, d.read px py =
          if py = y + sy ∧ ∃ sx ∈ cols, px = x + sx
          then src.read (px - x) sy else dest.read px py := by
  induction cols with
  | nil =>
    intro dest hdwf _ _
    refine ⟨dest, rfl, rfl, rfl, hdwf, ?_⟩
    intro px py
    simp
  | cons sx0 rest ih =>
    intro dest hdwf hb hyb
    have hsx0 : sx0 < src.width := (hb sx0 (List.mem_cons_self _ _)).1
    have hx0 : x + sx0 < dest.width := (hb sx0 (List.mem_cons_self _ _)).2
    obtain ⟨c, hc⟩ := ColorImage.read_isSome src hsrc sx0 sy hsx0 hsy
    have hwrite := ColorImage.write_spec dest hdwf (x + sx0) (y + sy) c hx0 hyb
    have hd1wf :
        ({ dest with
            pixels := dest.pixels.set ((y + sy) * dest.width + (x + sx0)) c }
          : ColorImage).wf :=
      ColorImage.wf_set dest hdwf _ c
    obtain ⟨d, hd, hdw, hdh, hdwf', hread⟩ := ih
      { dest with pixels := dest.pixels.set ((y + sy) * dest.width + (x + sx0)) c }
      hd1wf (fun sx hsx => hb sx (List.mem_cons_of_mem _ hsx)) hyb
    refine ⟨d, ?_, hdw, hdh, hdwf', ?_⟩
    · simp only [writeRowCells, writeCell, hc, hwrite]
      exact hd
    · intro px py
      have h1 := ColorImage.read_set dest hdwf (x + sx0) (y + sy) c hx0 hyb px py
      rw [hread px py]
      by_cases hA : py = y + sy ∧ ∃ sx ∈ rest, px = x + sx
      · rw [if_pos hA]
        obtain ⟨sx, hsx, hpx⟩ := hA.2
        rw [if_pos ⟨hA.1, sx, List.mem_cons_of_mem _ hsx, hpx⟩]
      · rw [if_neg hA, h1]
        by_cases hB : px = x + sx0 ∧ py = y + sy
        · rw [if_pos hB, if_pos ⟨hB.2, sx0, List.mem_cons_self _ _, hB.1⟩]
          have hpx : px - x = sx0 := by omega
          rw [hpx, hc]
        · rw [if_neg hB]
          have hC : ¬(py = y + sy ∧ ∃ sx ∈ sx0 :: rest, px = x + sx) := by
            rintro ⟨hpy, sx, hsx, hpx⟩
            rcases List.mem_cons.1 hsx with rfl | hsx'
            · exact hB ⟨hpx, hpy⟩
            · exact hA ⟨hpy, sx, hsx', hpx⟩
          rw [if_neg hC]

theorem writeRowsOf_spec (src : ColorImage) (hsrc : src.wf) (x y : Nat)
    (rows : List Nat) :
    ∀ dest : ColorImage, dest.wf →
      x + src.width ≤ dest.width →
      (∀ sy ∈ rows, sy < src.height ∧ y + sy < dest.height) →
      ∃ d, writeRowsOf x y src dest rows = some d ∧
        d.width = dest.width ∧ d.height = dest.height ∧ d.wf ∧
        ∀ px py, d.read px py =
          if (x ≤ px ∧ px < x + src.width) ∧ ∃ sy ∈ rows, py = y + sy
          then src.read (px - x) (py - y) else dest.read px py := by
  induction rows with
  | nil =>
    intro dest hdwf _ _
    refine ⟨dest, rfl, rfl, rfl, hdwf, ?_⟩
    intro px py
    simp
  | cons sy0 rest ih =>
    intro dest hdwf hxw hrows
    have hsy0 : sy0 < src.height := (hrows sy0 (List.mem_cons_self _ _)).1
    have hyb : y + sy0 < dest.height := (hrows sy0 (List.mem_cons_self _ _)).2
    obtain ⟨d1, hd1, hd1w, hd1h, hd1wf, hread1⟩ :=
      writeRowCells_spec src hsrc x y sy0 hsy0 (List.range src.width) dest hdwf
        (fun sx hsx => ⟨List.mem_range.1 hsx,
          Nat.lt_of_lt_of_le (by have := List.mem_range.1 hsx; omega) hxw⟩)
        hyb
    obtain ⟨d, hd, hdw, hdh, hdwf', hread⟩ := ih d1 hd1wf
      (by rw [hd1w]; exact hxw)
      (fun sy hsy => ⟨(hrows sy (List.mem_cons_of_mem _ hsy)).1,
        by rw [hd1h]; exact (hrows sy (List.mem_cons_of_mem _ hsy)).2⟩)
    refine ⟨d, ?_, by rw [hdw, hd1w], by rw [hdh, hd1h], hdwf', ?_⟩
    · simp only [writeRowsOf, hd1]
      exact hd
    · intro px py
      rw [hread px py]
      by_cases hA : (x ≤ px ∧ px < x + src.width) ∧ ∃ sy ∈ rest, py = y + sy
      · rw [if_pos hA]
        obtain ⟨sy, hsy, hpy⟩ := hA.2
        rw [if_pos ⟨hA.1, sy, List.mem_cons_of_mem _ hsy, hpy⟩]
      · rw [if_neg hA, hread1 px py]
        by_cases hB : py = y + sy0 ∧ ∃ sx ∈ List.range src.width, px = x + sx
        · rw [if_pos hB]
          have hxr : x ≤ px ∧ px < x + src.width :=
            (exists_mem_range_add src.width x px).1 hB.2
          rw [if_pos ⟨hxr, sy0, List.mem_cons_self _ _, hB.1⟩]
          have hpy : py - y = sy0 := by omega
          rw [hpy]
        · rw [if_neg hB]
          have hC : ¬((x ≤ px ∧ px < x + src.width) ∧
              ∃ sy ∈ sy0 :: rest, py = y + sy) := by
            rintro ⟨hxr, sy, hsy, hpy⟩
            rcases List.mem_cons.1 hsy with rfl | hsy'
            · exact hB ⟨hpy, (exists_mem_range_add src.width x px).2 hxr⟩
            · exact hA ⟨hxr, sy, hsy', hpy⟩
          rw [if_neg hC]

theorem update_image_rect_spec (dest src : ColorImage) (x y : Nat)
    (hdwf : dest.wf) (hswf : src.wf)
    (hxb : x + src.width ≤ dest.width) (hyb : y + src.height ≤ dest.height) :
    ∃ d, update_image_rect dest (x, y) src = some d ∧
      d.width = dest.width ∧ d.height = dest.height ∧ d.wf ∧
      ∀ px py, d.read px py =
        if x ≤ px ∧ px < x + src.width ∧ y ≤ py ∧ py < y + src.height
        then src.read (px - x) (py - y) else dest.read px py := by
  obtain ⟨d, hd, hdw, hdh, hdwf', hread⟩ :=
    writeRowsOf_spec src hswf x y (List.range src.height) dest hdwf hxb
      (fun sy hsy => ⟨List.mem_range.1 hsy,
        Nat.lt_of_lt_of_le (by have := List.mem_range.1 hsy; omega) hyb⟩)
  refine ⟨d, hd, hdw, hdh, hdwf', ?_⟩
  intro px py
  rw [hread px py]
  apply if_congr _ rfl rfl
  rw [exists_mem_range_add src.height y py]
  constructor
  · rintro ⟨⟨h1, h2⟩, h3, h4⟩
    exact ⟨h1, h2, h3, h4⟩
  · rintro ⟨h1, h2, h3, h4⟩
    exact ⟨⟨h1, h2⟩, h3, h4⟩

theorem ColorImage.write_some_bounds {img j : ColorImage} {x y : Nat} {c : Color}
    (h : img.write x y c = some j) :
    x < img.width ∧ y < img.height ∧ j.width = img.width ∧ j.height = img.height := by
  unfold ColorImage.write at h
  by_cases hb : x < img.width ∧ y < img.height
  · rw [if_pos hb] at h
    by_cases hidx : y * img.width + x < img.pixels.length
    · rw [if_pos hidx] at h
      have hj := Option.some.inj h
      exact ⟨hb.1, hb.2, by rw [← hj], by rw [← hj]⟩
    · rw [if_neg hidx] at h
      exact absurd h (by simp)
  · rw [if_neg hb] at h
    exact absurd h (by simp)

theorem writeRowCells_some_bounds {x y sy : Nat} {src : ColorImage}
    (cols : List Nat) :
    ∀ {dest d : ColorImage}, writeRowCells x y sy src dest cols = some d →
      (∀ sx ∈ cols, x + sx < dest.width ∧ y + sy < dest.height) ∧
        d.width = dest.width ∧ d.height = dest.height := by
  induction cols with
  | nil =>
    intro dest d h
    have hd := Option.some.inj h
    exact ⟨by simp, by rw [← hd], by rw [← hd]⟩
  | cons sx0 rest ih =>
    intro dest d h
    cases hcell : writeCell x y src dest sx0 sy with
    | none =>
      simp only [writeRowCells, hcell] at h
      exact Option.noConfusion h
    | some d1 =>
      simp only [writeRowCells, hcell] at h
      unfold writeCell at hcell
      cases hread : src.read sx0 sy with
      | none =>
        rw [hread] at hcell
        exact absurd hcell (by simp)
      | some c =>
        rw [hread] at hcell
        have hwb := ColorImage.write_some_bounds hcell
        obtain ⟨hrest, hdw, hdh⟩ := ih h
        refine ⟨?_, by rw [hdw, hwb.2.2.1], by rw [hdh, hwb.2.2.2]⟩
        intro sx hsx
        rcases List.mem_cons.1 hsx with rfl | hsx'
        · exact ⟨hwb.1, hwb.2.1⟩
        · have hr := hrest sx hsx'
          rw [hwb.2.2.1, hwb.2.2.2] at hr
          exact hr

theorem writeRowsOf_some_bounds {x y : Nat} {src : ColorImage} (rows : List Nat) :
    ∀ {dest d : ColorImage}, writeRowsOf x y src dest rows = some d →
      (∀ sy ∈ rows, ∀ sx ∈ List.range src.width,
        x + sx < dest.width ∧ y + sy < dest.height) ∧
        d.width = dest.width ∧ d.height = dest.height := by
  induction rows with
  | nil =>
    intro dest d h
    have hd := Option.some.inj h
    exact ⟨by simp, by rw [← hd], by rw [← hd]⟩
  | cons sy0 rest ih =>
    intro dest d h
    cases hrow : writeRowCells x y sy0 src dest (List.range src.width) with
    | none =>
      simp only [writeRowsOf, hrow] at h
      exact Option.noConfusion h
    | some d1 =>
      simp only [writeRowsOf, hrow] at h
      have hrb := writeRowCells_some_bounds (List.range src.width) hrow
      obtain ⟨hrest, hdw, hdh⟩ := ih h
      refine ⟨?_, by rw [hdw, hrb.2.1], by rw [hdh, hrb.2.2]⟩
      intro sy hsy sx hsx
      rcases List.mem_cons.1 hsy with rfl | hsy'
      · exact hrb.1 sx hsx
      · have hr := hrest sy hsy' sx hsx
        rw [hrb.2.1, hrb.2.2] at hr
        exact hr

/-- C10: the partial-patch pixel copy of `update_image_rect` performs
checked-by-panic indexing only: a patch whose sub-rectangle (with
`src.width, src.height ≥ 1`) extends past the bounds of the stored image
panics (modelled as `none`) instead of clamping or skipping, while a patch
satisfying `x + W ≤ stored_width` and `y + H ≤ stored_height` on well-formed
images always succeeds. -/
theorem patch_out_of_bounds_panics (dest src : ColorImage) (x y : Nat)
    (hW : 1 ≤ src.width) (hH : 1 ≤ src.height)
    (hpast : dest.width < x + src.width ∨ dest.height < y + src.height) :
    update_image_rect dest (x, y) src = none ∧
    (∀ (d2 s2 : ColorImage) (x2 y2 : Nat), d2.wf → s2.wf →
      x2 + s2.width ≤ d2.width → y2 + s2.height ≤ d2.height →
      ∃ d, update_image_rect d2 (x2, y2) s2 = some d) := by
  constructor
  · cases hu : update_image_rect dest (x, y) src with
    | none => rfl
    | some d =>
      exfalso
      simp only [update_image_rect] at hu
      have hb := writeRowsOf_some_bounds (List.range src.height) hu
      have hsy : src.height - 1 ∈ List.range src.height := by
        simp only [List.mem_range]
        omega
      have hsx : src.width - 1 ∈ List.range src.width := by
        simp only [List.mem_range]
        omega
      have hcell := hb.1 (src.height - 1) hsy (src.width - 1) hsx
      omega
  · intro d2 s2 x2 y2 hdwf hswf hxb hyb
    obtain ⟨d, hd, _, _, _, _⟩ := update_image_rect_spec d2 s2 x2 y2 hdwf hswf hxb hyb
    exact ⟨d, hd⟩

/-- Witness for C10: a 2×1 patch at offset `(1, 0)` into a stored 2×2 image
extends one pixel past the right edge and panics. -/
theorem patch_out_of_bounds_panics_witness :
    update_image_rect ⟨2, 2, [0, 0, 0, 0]⟩ (1, 0) ⟨2, 1, [7, 7]⟩ = none :=
  (patch_out_of_bounds_panics ⟨2, 2, [0, 0, 0, 0]⟩ ⟨2, 1, [7, 7]⟩ 1 0
    (by decide) (by decide) (by decide)).1

/-- C2: a texture-delta entry carrying a sub-rect offset whose
`(target, local_id)` has no existing managed texture leaves both the
managed-texture store and the image-asset store unchanged and appends a
warning; no error or panic is raised. -/
theorem patch_missing_texture_skips (entity : Entity) (st : TextureState)
    (texture_id : Nat) (sub : ColorImage) (x y : Nat)
    (h : lookupKey st.managed (entity, texture_id) = none) :
    ∃ st',
      update_egui_textures_system entity
        [(TextureId.Managed texture_id, ⟨sub, some (x, y)⟩)] st = some st' ∧
      st'.managed = st.managed ∧ st'.assets = st.assets ∧
      st'.warnings = st.warnings
        ++ ["Partial update of a missing texture (id: "
            ++ toString texture_id ++ ")"] := by
  refine ⟨{ st with warnings := st.warnings
    ++ ["Partial update of a missing texture (id: "
        ++ toString texture_id ++ ")"] }, ?_, rfl, rfl, rfl⟩
  simp [update_egui_textures_system, apply_set_texture, h]

/-- Witness for C2 at the empty texture state. -/
theorem patch_missing_texture_skips_witness :
    ∃ st',
      update_egui_textures_system ⟨0, 0⟩
        [(TextureId.Managed 3, ⟨⟨1, 1, [5]⟩, some (0, 0)⟩)] ⟨[], ⟨0, []⟩, []⟩
        = some st' ∧
      st'.managed = ([] : List ((Entity × Nat) × EguiManagedTexture)) ∧
      st'.assets = (⟨0, []⟩ : Assets) ∧
      st'.warnings = ([] : List String)
        ++ ["Partial update of a missing texture (id: " ++ toString 3 ++ ")"] :=
  patch_missing_texture_skips ⟨0, 0⟩ ⟨[], ⟨0, []⟩, []⟩ 3 ⟨1, 1, [5]⟩ 0 0 rfl

/-- C3: a full upload of a managed texture followed by an in-bounds partial
patch at offset `(x, y)` stores a pixel buffer equal to the full image with
exactly the `W×H` sub-rectangle at `(x, y)` overwritten by the sub-image;
every pixel outside the sub-rectangle is unchanged. -/
theorem full_then_patch_overwrites_subrect (entity : Entity)
    (st : TextureState) (texture_id : Nat) (full sub : ColorImage) (x y : Nat)
    (hfwf : full.wf) (hswf : sub.wf)
    (hxb : x + sub.width ≤ full.width) (hyb : y + sub.height ≤ full.height) :
    ∃ st' mt,
      update_egui_textures_system entity
        [(TextureId.Managed texture_id, ⟨full, none⟩),
         (TextureId.Managed texture_id, ⟨sub, some (x, y)⟩)] st = some st' ∧
      lookupKey st'.managed (entity, texture_id) = some mt ∧
      mt.color_image.width = full.width ∧ mt.color_image.height = full.height ∧
      ∀ px py, mt.color_image.read px py =
        if x ≤ px ∧ px < x + sub.width ∧ y ≤ py ∧ py < y + sub.height
        then sub.read (px - x) (py - y) else full.read px py := by
  obtain ⟨d, hd, hdw, hdh, hdwf, hread⟩ :=
    update_image_rect_spec full sub x y hfwf hswf hxb hyb
  have h1 : update_egui_textures_system entity
      [(TextureId.Managed texture_id, ⟨full, none⟩),
       (TextureId.Managed texture_id, ⟨sub, some (x, y)⟩)] st
      = some { managed := insertKey
                  (insertKey st.managed (entity, texture_id)
                    ⟨st.assets.next_id, full⟩)
                  (entity, texture_id) ⟨st.assets.next_id + 1, d⟩,
               assets := ⟨st.assets.next_id + 2,
                 (st.assets.next_id + 1, d)
                   :: (st.assets.next_id, full) :: st.assets.images⟩,
               warnings := st.warnings } := by
    simp [update_egui_textures_system, apply_set_texture, Assets.add,
      lookupKey_insertKey_self, hd]
  refine ⟨_, ⟨st.assets.next_id + 1, d⟩, h1, ?_, hdw, hdh, hread⟩
  exact lookupKey_insertKey_self _ _ _

/-- Witness for C3: a 1×1 patch with value `9` at `(1, 0)` into a full 2×2
upload. -/
theorem full_then_patch_overwrites_subrect_witness :
    ∃ st' mt,
      update_egui_textures_system ⟨0, 0⟩
        [(TextureId.Managed 0, ⟨⟨2, 2, [1, 2, 3, 4]⟩, none⟩),
         (TextureId.Managed 0, ⟨⟨1, 1, [9]⟩, some (1, 0)⟩)] ⟨[], ⟨0, []⟩, []⟩
        = some st' ∧
      lookupKey st'.managed (⟨0, 0⟩, 0) = some mt ∧
      mt.color_image.width = (⟨2, 2, [1, 2, 3, 4]⟩ : ColorImage).width ∧
      mt.color_image.height = (⟨2, 2, [1, 2, 3, 4]⟩ : ColorImage).height ∧
      ∀ px py, mt.color_image.read px py =
        if 1 ≤ px ∧ px < 1 + 1 ∧ 0 ≤ py ∧ py < 0 + 1
        then (⟨1, 1, [9]⟩ : ColorImage).read (px - 1) (py - 0)
        else (⟨2, 2, [1, 2, 3, 4]⟩ : ColorImage).read px py :=
  full_then_patch_overwrites_subrect ⟨0, 0⟩ ⟨[], ⟨0, []⟩, []⟩ 0
    ⟨2, 2, [1, 2, 3, 4]⟩ ⟨1, 1, [9]⟩ 1 0 (by rfl) (by rfl)
    (by decide) (by decide)

theorem free_preserves_managed_none (entity : Entity) (texture_id : Nat)
    (l : List TextureId) :
    ∀ (managed : List ((Entity × Nat) × EguiManagedTexture)) (assets : Assets),
      lookupKey managed (entity, texture_id) = none →
      lookupKey (free_egui_textures_system entity l managed assets).1
        (entity, texture_id) = none := by
  induction l with
  | nil => intro managed assets h; exact h
  | cons t rest ih =>
    intro managed assets h
    cases t with
    | User uid =>
      simp only [free_egui_textures_system]
      exact ih managed assets h
    | Managed tid' =>
      cases hlk : lookupKey managed (entity, tid') with
      | some mt' =>
        simp only [free_egui_textures_system, hlk]
        apply ih
        by_cases hkey : (entity, texture_id) = (entity, tid')
        · rw [hkey]
          exact lookupKey_eraseKey_self _ _
        · rw [lookupKey_eraseKey_ne managed (entity, tid') (entity, texture_id) hkey]
          exact h
      | none =>
        simp only [free_egui_textures_system, hlk]
        exact ih managed assets h

theorem free_preserves_asset_none (entity : Entity) (handle : Nat)
    (l : List TextureId) :
    ∀ (managed : List ((Entity × Nat) × EguiManagedTexture)) (assets : Assets),
      lookupKey assets.images handle = none →
      lookupKey (free_egui_textures_system entity l managed assets).2.images
        handle = none := by
  induction l with
  | nil => intro managed assets h; exact h
  | cons t rest ih =>
    intro managed assets h
    cases t with
    | User uid =>
      simp only [free_egui_textures_system]
      exact ih managed assets h
    | Managed tid' =>
      cases hlk : lookupKey managed (entity, tid') with
      | some mt' =>
        simp only [free_egui_textures_system, hlk]
        apply ih
        simp only [Assets.remove]
        by_cases hh : handle = mt'.handle
        · rw [hh]
          exact lookupKey_eraseKey_self _ _
        · rw [lookupKey_eraseKey_ne assets.images mt'.handle handle hh]
          exact h
      | none =>
        simp only [free_egui_textures_system, hlk]
        exact ih managed assets h

/-- C6: for every managed id in a frame's free-list, processing the list
removes the `(target, local_id)` entry from the managed-texture store and
removes its backing image asset from the asset store, so a subsequent
resolve of that id fails. -/
theorem free_textures_removes_entry_and_asset (entity : Entity)
    (texture_id : Nat) (mt : EguiManagedTexture) (free_list : List TextureId) :
    ∀ (managed : List ((Entity × Nat) × EguiManagedTexture)) (assets : Assets),
      lookupKey managed (entity, texture_id) = some mt →
      TextureId.Managed texture_id ∈ free_list →
      lookupKey (free_egui_textures_system entity free_list managed assets).1
          (entity, texture_id) = none ∧
        lookupKey
          (free_egui_textures_system entity free_list managed assets).2.images
          mt.handle = none ∧
        resolveManaged
          (free_egui_textures_system entity free_list managed assets).1
          (free_egui_textures_system entity free_list managed assets).2
          entity texture_id = none := by
  induction free_list with
  | nil =>
    intro managed assets _ hmem
    exact absurd hmem (List.not_mem_nil _)
  | cons t rest ih =>
    intro managed assets hlk hmem
    cases t with
    | User uid =>
      simp only [free_egui_textures_system]
      have hmem' : TextureId.Managed texture_id ∈ rest := by
        rcases List.mem_cons.1 hmem with heq | h'
        · exact absurd heq (by intro he; exact TextureId.noConfusion he)
        · exact h'
      exact ih managed assets hlk hmem'
    | Managed tid' =>
      by_cases htid : tid' = texture_id
      · subst htid
        simp only [free_egui_textures_system, hlk]
        have h1 : lookupKey (eraseKey managed (entity, tid')) (entity, tid')
            = none := lookupKey_eraseKey_self _ _
        have h2 : lookupKey (assets.remove mt.handle).images mt.handle = none := by
          simp only [Assets.remove]
          exact lookupKey_eraseKey_self _ _
        have hm := free_preserves_managed_none entity tid' rest
          (eraseKey managed (entity, tid')) (assets.remove mt.handle) h1
        have ha := free_preserves_asset_none entity mt.handle rest
          (eraseKey managed (entity, tid')) (assets.remove mt.handle) h2
        exact ⟨hm, ha, by simp [resolveManaged, hm]⟩
      · have hkeyne : (entity, texture_id) ≠ (entity, tid') := by
          intro hk
          exact htid (congrArg Prod.snd hk).symm
        have hmem' : TextureId.Managed texture_id ∈ rest := by
          rcases List.mem_cons.1 hmem with heq | h'
          · exact absurd heq (by
              intro he
              injection he with hid
              exact htid hid.symm)
          · exact h'
        cases hlk' : lookupKey managed (entity, tid') with
        | some mt' =>
          simp only [free_egui_textures_system, hlk']
          apply ih
          · rw [lookupKey_eraseKey_ne managed (entity, tid') (entity, texture_id)
              hkeyne]
            exact hlk
          · exact hmem'
        | none =>
          simp only [free_egui_textures_system, hlk']
          exact ih managed assets hlk hmem'

/-- Witness for C6: freeing managed id `1` of entity `(0, 0)` from a
one-entry store whose texture is backed by asset handle `7`. -/
theorem free_textures_removes_entry_and_asset_witness :
    lookupKey (free_egui_textures_system ⟨0, 0⟩ [TextureId.Managed 1]
        [((⟨0, 0⟩, 1), ⟨7, ⟨1, 1, [3]⟩⟩)] ⟨8, [(7, ⟨1, 1, [3]⟩)]⟩).1
        (⟨0, 0⟩, 1) = none ∧
      lookupKey (free_egui_textures_system ⟨0, 0⟩ [TextureId.Managed 1]
        [((⟨0, 0⟩, 1), ⟨7, ⟨1, 1, [3]⟩⟩)] ⟨8, [(7, ⟨1, 1, [3]⟩)]⟩).2.images
        (⟨7, ⟨1, 1, [3]⟩⟩ : EguiManagedTexture).handle = none ∧
      resolveManaged (free_egui_textures_system ⟨0, 0⟩ [TextureId.Managed 1]
          [((⟨0, 0⟩, 1), ⟨7, ⟨1, 1, [3]⟩⟩)] ⟨8, [(7, ⟨1, 1, [3]⟩)]⟩).1
        (free_egui_textures_system ⟨0, 0⟩ [TextureId.Managed 1]
          [((⟨0, 0⟩, 1), ⟨7, ⟨1, 1, [3]⟩⟩)] ⟨8, [(7, ⟨1, 1, [3]⟩)]⟩).2
        ⟨0, 0⟩ 1 = none :=
  free_textures_removes_entry_and_asset ⟨0, 0⟩ 1 ⟨7, ⟨1, 1, [3]⟩⟩
    [TextureId.Managed 1] [((⟨0, 0⟩, 1), ⟨7, ⟨1, 1, [3]⟩⟩)] ⟨8, [(7, ⟨1, 1, [3]⟩)]⟩
    (by decide) (by decide)

end BevyEgui
